import Mathlib

/-!
# Verification of the rk-utils dot-path accessor and sequential promise orchestrator

This file gives a shallow embedding of the collection-related and promise-related
utilities of the `rk-utils` repository (`src/index.js`, current version, together
with the legacy root `index.js` variant where it differs) and proves the frozen
claims about them.

Modelling conventions:
* JavaScript values are modelled by the inductive type `JSVal`: `undefined`, `null`,
  booleans, numbers (as integers; no claim involves fractional numbers or NaN),
  strings, arrays and plain objects.  Objects are association lists of string keys
  in insertion order; arrays are plain lists addressed by canonical numeric string
  keys.  Non-index properties of arrays, the special `length` property and the
  prototype chain are outside the scope of the model (no claim depends on them).
* In-place mutation is modelled by state passing: a mutating operation returns the
  updated collection.  A thrown exception is modelled by `Except.error`; the code
  runs in strict mode, so assigning a property on a primitive throws.
* The promise chains built by `eachPromise_` / `ifAnyPromise_` are deterministic and
  strictly sequential, so a settled promise is modelled by `Except JSVal JSVal`
  (rejection value or resolution value), and a promise factory by a function
  returning such a value.
-/

/-- Model of a JavaScript value. -/
inductive JSVal where
  | undef
  | null
  | bool (b : Bool)
  | num (n : Int)
  | str (s : String)
  | arr (elems : List JSVal)
  | obj (fields : List (String × JSVal))

/-- Lodash `_.isNil`: `null` or `undefined`. -/
def isNil : JSVal → Bool
  | .undef => true
  | .null => true
  | _ => false

/-- Lodash `_.isUndefined`. -/
def isUndef : JSVal → Bool
  | .undef => true
  | _ => false

/-- JavaScript truthiness. -/
def jsTruthy : JSVal → Bool
  | .undef => false
  | .null => false
  | .bool b => b
  | .num n => n != 0
  | .str s => s != ""
  | .arr _ => true
  | .obj _ => true

/-- Shorthand for the undefined value, used where the dotted constructor
shorthand would sit awkwardly in an expression. -/
def jsUndefined : JSVal := .undef

def jsNullValue : JSVal := .null

/-- Values of `typeof _ === 'object'` shape in the model: arrays and plain objects. -/
def isIndexable : JSVal → Bool
  | .arr _ => true
  | .obj _ => true
  | _ => false

/-- Digits of a decimal numeral to a natural number. -/
def digitsToNat (cs : List Char) : Nat :=
  cs.foldl (fun n c => n * 10 + (c.toNat - '0'.toNat)) 0

/-- A string that is a canonical array index (`"0"`, `"1"`, ..., no leading zeros). -/
def toArrayIndex? (s : String) : Option Nat :=
  match s.data with
  | [] => none
  | c :: cs =>
    if (c :: cs).all (·.isDigit) && (c != '0' || cs.isEmpty) then
      some (digitsToNat (c :: cs))
    else none

/-- Lookup of an own property on an object's field list (`undefined` when absent). -/
def objLookup (fields : List (String × JSVal)) (key : String) : JSVal :=
  match fields with
  | [] => .undef
  | (k, v) :: rest => if k == key then v else objLookup rest key

/-- Whether an object's field list has an own property `key`. -/
def objHasKey (fields : List (String × JSVal)) (key : String) : Bool :=
  match fields with
  | [] => false
  | (k, _) :: rest => k == key || objHasKey rest key

/-- Property write on an object's field list: update in place or append. -/
def objInsert (fields : List (String × JSVal)) (key : String) (v : JSVal) :
    List (String × JSVal) :=
  match fields with
  | [] => [(key, v)]
  | (k, w) :: rest =>
    if k == key then (k, v) :: rest else (k, w) :: objInsert rest key v

/-- Write position `i` of an array, extending with `undefined` holes if needed. -/
def listSetPad : List JSVal → Nat → JSVal → List JSVal
  | [], i, v => List.replicate i .undef ++ [v]
  | _ :: xs, 0, v => v :: xs
  | x :: xs, i + 1, v => x :: listSetPad xs i v

/-- Property read `v[key]` on a value that is not `null`/`undefined` (those would
throw; see `jsIndexE`).  Reads on booleans and numbers yield `undefined`. -/
def jsIndex : JSVal → String → JSVal
  | .arr xs, key =>
    (match toArrayIndex? key with
     | some i => xs.getD i .undef
     | none => .undef)
  | .obj fs, key => objLookup fs key
  | .str s, key =>
    (match toArrayIndex? key with
     | some i =>
       (match s.data.get? i with
        | some c => .str (String.mk [c])
        | none => .undef)
     | none => .undef)
  | _, _ => jsUndefined

/-- Property read `v[key]`, throwing a `TypeError` on `null`/`undefined`. -/
def jsIndexE (v : JSVal) (key : String) : Except String JSVal :=
  if isNil v then .error "TypeError: cannot read properties of null or undefined"
  else .ok (jsIndex v key)

/-- The `key in v` operator: throws a `TypeError` on primitives. -/
def jsHasIn (key : String) : JSVal → Except String Bool
  | .arr xs =>
    .ok (match toArrayIndex? key with
         | some i => decide (i < xs.length)
         | none => false)
  | .obj fs => .ok (objHasKey fs key)
  | _ => .error "TypeError: cannot use in operator on a primitive"

/-- Strict-mode property write `v[key] = x`: throws on primitives; arrays accept
canonical numeric keys (other array keys are outside the model's scope). -/
def jsSetProp (v : JSVal) (key : String) (x : JSVal) : Except String JSVal :=
  match v with
  | .arr xs =>
    (match toArrayIndex? key with
     | some i => .ok (.arr (listSetPad xs i x))
     | none => .error "model: non-index property write on array")
  | .obj fs => .ok (.obj (objInsert fs key x))
  | _ => .error "TypeError: cannot create property on a primitive"

/-- The split `keyPath.split('.')` at the character level (single-character separator,
no regular expression); always returns at least one segment. -/
def splitDotsAux : List Char → List Char → List String
  | [], cur => [String.mk cur.reverse]
  | c :: cs, cur =>
    if c = '.' then String.mk cur.reverse :: splitDotsAux cs [] else splitDotsAux cs (c :: cur)

/-- The node list of a dot-separated key path, as in `keyPath.split('.')`. -/
def pathSplit (keyPath : String) : List String :=
  splitDotsAux keyPath.data []

/-- The traversal loop shared by `getValueByPath` and `hasKeyByPath`:
`_.find(nodes, elem => { value = value[elem]; return _.isNil(value); })`.
Indexing may throw (`jsIndexE`); the loop stops at the first nil value. -/
def walkE : JSVal → List String → Except String JSVal
  | v, [] => .ok v
  | v, k :: ks =>
    match jsIndexE v k with
    | .error e => .error e
    | .ok v2 => if isNil v2 then .ok v2 else walkE v2 ks

/-- Pure version of the traversal loop, used to state results about it:
starting from a non-nil value the loop never actually throws
(`walkE_eq_walkNodes`). -/
def walkNodes : JSVal → List String → JSVal
  | v, [] => v
  | v, k :: ks =>
    let v2 := jsIndex v k
    if isNil v2 then v2 else walkNodes v2 ks

/-- Function `getValueByPath(collection, keyPath, defaultValue)` of `src/index.js`
(current version): returns `defaultValue` when the collection is nil or the
walk ends in a nil value, the found value otherwise. -/
def getValueByPath (collection : JSVal) (keyPath : String) (defaultValue : JSVal) :
    Except String JSVal :=
  if isNil collection then .ok defaultValue
  else
    match walkE collection (pathSplit keyPath) with
    | .error e => .error e
    | .ok value => .ok (if isNil value then defaultValue else value)

/-- The traversal loop of the legacy root `index.js` variant of `getValueByPath`:
it stops only on `undefined` (`typeof value === 'undefined'`), so it can index
into `null` and throw. -/
def walkLegacyE : JSVal → List String → Except String JSVal
  | v, [] => .ok v
  | v, k :: ks =>
    match jsIndexE v k with
    | .error e => .error e
    | .ok v2 => if isUndef v2 then .ok v2 else walkLegacyE v2 ks

/-- Function `getValueByPath` of the legacy root `index.js`: guards only against an
`undefined` collection and returns `value || defaultValue`, replacing every
falsy found value by the default. -/
def getValueByPathLegacy (collection : JSVal) (keyPath : String) (defaultValue : JSVal) :
    Except String JSVal :=
  if isUndef collection then .ok defaultValue
  else
    match walkLegacyE collection (pathSplit keyPath) with
    | .error e => .error e
    | .ok value => .ok (if jsTruthy value then value else defaultValue)

/-- The descend-and-assign loop of `setValueByPath`:
`_.each(nodes, key => { if (key in lastNode) lastNode = lastNode[key];
else lastNode = lastNode[key] = {}; }); lastNode[lastKey] = value;`.
In-place mutation is modelled by rebuilding the updated collection. -/
def setNodes : JSVal → List String → String → JSVal → Except String JSVal
  | node, [], lastKey, value => jsSetProp node lastKey value
  | node, k :: ks, lastKey, value =>
    match jsHasIn k node with
    | .error e => .error e
    | .ok hk =>
      let child := if hk then jsIndex node k else .obj []
      match setNodes child ks lastKey value with
      | .error e => .error e
      | .ok child2 => jsSetProp node k child2

/-- Function `setValueByPath(collection, keyPath, value)` of `src/index.js` (current
version): throws `Invalid collection object.` unless the collection is a
non-nil object, then descends through the intermediate keys (creating empty
objects for missing ones) and assigns at the last key.  Returns the updated
collection. -/
def setValueByPath (collection : JSVal) (keyPath : String) (value : JSVal) :
    Except String JSVal :=
  if isNil collection || !isIndexable collection then .error "Invalid collection object."
  else
    let nodes := pathSplit keyPath
    setNodes collection nodes.dropLast (nodes.getLastD "") value

/-- Function `hasKeyByPath(collection, keyPath)` of `src/index.js`: false for a falsy
collection, walks all but the last node with the `getValueByPath` loop, false
when that walk ends nil, else evaluates `lastKey in value` (which throws on a
non-nil primitive). -/
def hasKeyByPath (collection : JSVal) (keyPath : String) : Except String Bool :=
  if !jsTruthy collection then .ok false
  else
    let nodes := pathSplit keyPath
    match walkE collection nodes.dropLast with
    | .error e => .error e
    | .ok value =>
      if isNil value then .ok false else jsHasIn (nodes.getLastD "") value

/-- The array elements of a value, when it is an array (`_.isArray`). -/
def asArr? : JSVal → Option (List JSVal)
  | .arr xs => some xs
  | _ => none

/-- The branches of `putIntoBucket` that build the grown bucket: an existing
array bucket is extended (flattened concat or plain push), a nil slot starts a
fresh bucket (a copy of an array value under `flatten`, else a singleton), and
any other existing value is widened to a pair (or `[existing, ...value]` when
flattened). -/
def newBucket (bucket value : JSVal) (flattenArray : Bool) : JSVal :=
  match bucket, asArr? value, flattenArray with
  | .arr xs, some ys, true => .arr (xs ++ ys)
  | .arr xs, _, _ => .arr (xs ++ [value])
  | bk, some ys, true => if isNil bk then .arr ys else .arr (bk :: ys)
  | bk, _, _ => if isNil bk then .arr [value] else .arr [bk, value]

/-- Function `putIntoBucket(collection, key, value, flattenArray)` of `src/index.js`.
The in-place `bucket.push(value)` of the source mutates the array already
stored at the path; in the state-passing model this heap effect is rendered by
writing the grown bucket back with `setValueByPath` (which provably succeeds
whenever the read found an array there).  Returns the updated collection
together with the returned bucket. -/
def putIntoBucket (collection : JSVal) (key : String) (value : JSVal)
    (flattenArray : Bool) : Except String (JSVal × JSVal) :=
  match getValueByPath collection key .undef with
  | .error e => .error e
  | .ok bucket =>
    let b := newBucket bucket value flattenArray
    match setValueByPath collection key b with
    | .error e => .error e
    | .ok c => .ok (c, b)

/-- A promise factory as chained by `eachPromise_`: receives the resolution
value of the preceding step and settles to a rejection or a resolution. -/
abbrev PromiseFactory := JSVal → Except JSVal JSVal

/-- The chain built by the `forEach` loop of `eachPromise_`:
`ready = ready.then(promiseFactory).then(value => { accumulator.push(value); })`.
A rejected `ready` skips both callbacks; otherwise the factory is applied to
`ready`'s value, a rejection from it propagates, and on success the result is
pushed and the push callback resolves to `undefined` (its block body returns
nothing). -/
def eachPromiseChain :
    Except JSVal JSVal → List PromiseFactory → List JSVal →
      Except JSVal JSVal × List JSVal
  | ready, [], acc => (ready, acc)
  | .error e, _ :: fs, acc => eachPromiseChain (.error e) fs acc
  | .ok v, f :: fs, acc =>
    match f v with
    | .error e => eachPromiseChain (.error e) fs acc
    | .ok r => eachPromiseChain (.ok .undef) fs (acc ++ [r])

/-- Function `eachPromise_(arrayOfPromiseFactory)` of `src/index.js`: the chain starts
from `Promise.resolve(null)` and the overall promise is
`ready.then(() => accumulator)`. -/
def eachPromise (factories : List PromiseFactory) : Except JSVal (List JSVal) :=
  match eachPromiseChain (.ok .null) factories [] with
  | (.error e, _) => .error e
  | (.ok _, acc) => .ok acc

/-- The stopping condition of `ifAnyPromise_`:
`(predicate && predicate(result)) || result` — when a predicate is supplied and
passes the check succeeds, and otherwise the result's own truthiness decides. -/
def ifAnyCheck (predicate : Option (JSVal → JSVal)) (result : JSVal) : Bool :=
  (match predicate with
   | some p => jsTruthy (p result)
   | none => false) || jsTruthy result

/-- The `for` loop of `ifAnyPromise_`: awaits each zero-argument factory in
order, resolves with `[i, result]` at the first index passing `ifAnyCheck`,
with `undefined` (modelled as `none`) after exhausting the list. -/
def ifAnyPromiseGo (predicate : Option (JSVal → JSVal)) :
    List (Unit → Except JSVal JSVal) → Nat → Except JSVal (Option (Nat × JSVal))
  | [], _ => .ok none
  | f :: fs, i =>
    match f () with
    | .error e => .error e
    | .ok result =>
      if ifAnyCheck predicate result then .ok (some (i, result))
      else ifAnyPromiseGo predicate fs (i + 1)

/-- Function `ifAnyPromise_(arrayOfPromiseFactory, predicate)` of `src/index.js`. -/
def ifAnyPromise (factories : List (Unit → Except JSVal JSVal))
    (predicate : Option (JSVal → JSVal)) : Except JSVal (Option (Nat × JSVal)) :=
  ifAnyPromiseGo predicate factories 0

/-! ## Basic lemmas about the model -/

example : pathSplit "a.b" = ["a", "b"] := rfl

example : pathSplit "" = [""] := rfl

example : pathSplit "a..b" = ["a", "", "b"] := rfl

theorem isNil_eq_false_of_isIndexable {v : JSVal} (h : isIndexable v = true) :
    isNil v = false := by
  cases v <;> simp_all [isIndexable, isNil]

theorem jsTruthy_of_isIndexable {v : JSVal} (h : isIndexable v = true) :
    jsTruthy v = true := by
  cases v <;> simp_all [isIndexable, jsTruthy]

theorem isNil_arr (xs : List JSVal) : isNil (.arr xs) = false := rfl

theorem splitDotsAux_ne_nil (cs cur : List Char) : splitDotsAux cs cur ≠ [] := by
  induction cs generalizing cur with
  | nil => simp [splitDotsAux]
  | cons c cs ih =>
    simp only [splitDotsAux]
    split
    · simp
    · exact ih _

theorem pathSplit_ne_nil (keyPath : String) : pathSplit keyPath ≠ [] :=
  splitDotsAux_ne_nil _ _

theorem dropLast_append_getLastD {α : Type} {l : List α} (d : α) (h : l ≠ []) :
    l.dropLast ++ [l.getLastD d] = l := by
  induction l with
  | nil => exact absurd rfl h
  | cons a l ih =>
    cases l with
    | nil => rfl
    | cons b m =>
      simpa [List.dropLast, List.getLastD] using ih (by simp)

theorem pathSplit_decomp (keyPath : String) :
    (pathSplit keyPath).dropLast ++ [(pathSplit keyPath).getLastD ""] =
      pathSplit keyPath :=
  dropLast_append_getLastD "" (pathSplit_ne_nil keyPath)

theorem walkE_eq_walkNodes {v : JSVal} (ns : List String) (h : isNil v = false) :
    walkE v ns = .ok (walkNodes v ns) := by
  induction ns generalizing v with
  | nil => rfl
  | cons k ks ih =>
    simp only [walkE, walkNodes, jsIndexE, h, Bool.false_eq_true, if_false]
    by_cases h2 : isNil (jsIndex v k) = true
    · simp [h2]
    · simp only [Bool.not_eq_true] at h2
      simp [h2, ih]

theorem walkNodes_append_last (ns : List String) (v : JSVal) (k : String)
    (hv : isNil v = false) :
    walkNodes v (ns ++ [k]) =
      (if isNil (walkNodes v ns) then walkNodes v ns
       else jsIndex (walkNodes v ns) k) := by
  induction ns generalizing v with
  | nil =>
    simp only [List.nil_append, walkNodes, hv, Bool.false_eq_true, if_false]
    by_cases h : isNil (jsIndex v k) = true <;> simp [h, walkNodes]
  | cons k0 ks ih =>
    simp only [List.cons_append, walkNodes]
    by_cases h : isNil (jsIndex v k0) = true
    · simp [h]
    · simp only [Bool.not_eq_true] at h
      simp [h, ih _ h]

/-! ## Property-write lemmas -/

theorem objLookup_objInsert (fields : List (String × JSVal)) (key : String) (v : JSVal) :
    objLookup (objInsert fields key v) key = v := by
  induction fields with
  | nil => simp [objInsert, objLookup]
  | cons kv rest ih =>
    obtain ⟨k, w⟩ := kv
    by_cases h : k == key
    · simp [objInsert, objLookup, h]
    · simp only [objInsert, objLookup, h, Bool.false_eq_true, if_false]
      exact ih

theorem objHasKey_objInsert (fields : List (String × JSVal)) (key : String) (v : JSVal) :
    objHasKey (objInsert fields key v) key = true := by
  induction fields with
  | nil => simp [objInsert, objHasKey]
  | cons kv rest ih =>
    obtain ⟨k, w⟩ := kv
    by_cases h : k == key
    · simp [objInsert, objHasKey, h]
    · simp [objInsert, objHasKey, h, ih]

theorem replicate_append_getD (i : Nat) (v : JSVal) :
    (List.replicate i JSVal.undef ++ [v]).getD i .undef = v := by
  induction i with
  | zero => rfl
  | succ n ih =>
    rw [List.replicate_succ, List.cons_append, List.getD_cons_succ]
    exact ih

theorem listSetPad_getD (xs : List JSVal) (i : Nat) (v : JSVal) :
    (listSetPad xs i v).getD i .undef = v := by
  induction xs generalizing i with
  | nil =>
    simp only [listSetPad]
    exact replicate_append_getD i v
  | cons x xs ih =>
    cases i with
    | zero => simp [listSetPad]
    | succ n => simpa [listSetPad] using ih n

theorem lt_length_listSetPad (xs : List JSVal) (i : Nat) (v : JSVal) :
    i < (listSetPad xs i v).length := by
  induction xs generalizing i with
  | nil => simp [listSetPad]
  | cons x xs ih =>
    cases i with
    | zero => simp [listSetPad]
    | succ n => simpa [listSetPad, Nat.succ_lt_succ_iff] using ih n

theorem jsSetProp_ok_isIndexable {v : JSVal} {key : String} {x v2 : JSVal}
    (h : jsSetProp v key x = .ok v2) :
    isIndexable v = true ∧ isIndexable v2 = true := by
  cases v with
  | arr xs =>
    simp only [jsSetProp] at h
    rcases h2 : toArrayIndex? key with _ | i <;> rw [h2] at h
    · exact absurd h (by simp)
    · simp only [Except.ok.injEq] at h
      subst h
      exact ⟨rfl, rfl⟩
  | obj fs =>
    simp only [jsSetProp, Except.ok.injEq] at h
    subst h
    exact ⟨rfl, rfl⟩
  | undef => exact absurd h (by simp [jsSetProp])
  | null => exact absurd h (by simp [jsSetProp])
  | bool b => exact absurd h (by simp [jsSetProp])
  | num n => exact absurd h (by simp [jsSetProp])
  | str s => exact absurd h (by simp [jsSetProp])

theorem jsSetProp_ok_jsIndex {v : JSVal} {key : String} {x v2 : JSVal}
    (h : jsSetProp v key x = .ok v2) : jsIndex v2 key = x := by
  cases v with
  | arr xs =>
    simp only [jsSetProp] at h
    rcases h2 : toArrayIndex? key with _ | i <;> rw [h2] at h
    · exact absurd h (by simp)
    · simp only [Except.ok.injEq] at h
      subst h
      simp only [jsIndex, h2]
      exact listSetPad_getD xs i x
  | obj fs =>
    simp only [jsSetProp, Except.ok.injEq] at h
    subst h
    simp [jsIndex, objLookup_objInsert]
  | undef => exact absurd h (by simp [jsSetProp])
  | null => exact absurd h (by simp [jsSetProp])
  | bool b => exact absurd h (by simp [jsSetProp])
  | num n => exact absurd h (by simp [jsSetProp])
  | str s => exact absurd h (by simp [jsSetProp])

theorem jsSetProp_ok_hasIn {v : JSVal} {key : String} {x v2 : JSVal}
    (h : jsSetProp v key x = .ok v2) : jsHasIn key v2 = .ok true := by
  cases v with
  | arr xs =>
    simp only [jsSetProp] at h
    rcases h2 : toArrayIndex? key with _ | i <;> rw [h2] at h
    · exact absurd h (by simp)
    · simp only [Except.ok.injEq] at h
      subst h
      simp [jsHasIn, h2, lt_length_listSetPad]
  | obj fs =>
    simp only [jsSetProp, Except.ok.injEq] at h
    subst h
    simp [jsHasIn, objHasKey_objInsert]
  | undef => exact absurd h (by simp [jsSetProp])
  | null => exact absurd h (by simp [jsSetProp])
  | bool b => exact absurd h (by simp [jsSetProp])
  | num n => exact absurd h (by simp [jsSetProp])
  | str s => exact absurd h (by simp [jsSetProp])

/-! ## Lemmas about the set walk -/

theorem setNodes_ok_isIndexable {node : JSVal} {ns : List String} {lastKey : String}
    {value node2 : JSVal} (h : setNodes node ns lastKey value = .ok node2) :
    isIndexable node2 = true := by
  cases ns with
  | nil => exact (jsSetProp_ok_isIndexable h).2
  | cons k ks =>
    simp only [setNodes] at h
    split at h
    · exact absurd h (by simp)
    · split at h
      · exact absurd h (by simp)
      · exact (jsSetProp_ok_isIndexable h).2

theorem setNodes_walk {node : JSVal} {ns : List String} {lastKey : String}
    {value node2 : JSVal} (h : setNodes node ns lastKey value = .ok node2) :
    walkNodes node2 (ns ++ [lastKey]) = value := by
  induction ns generalizing node node2 with
  | nil =>
    have hidx := jsSetProp_ok_jsIndex h
    simp only [List.nil_append, walkNodes]
    by_cases h2 : isNil (jsIndex node2 lastKey) = true <;> simp [h2, walkNodes, hidx]
  | cons k ks ih =>
    simp only [setNodes] at h
    split at h
    · exact absurd h (by simp)
    · split at h
      · exact absurd h (by simp)
      · rename_i child2 hchild
        have hic : jsIndex node2 k = child2 := jsSetProp_ok_jsIndex h
        have hcind : isIndexable child2 = true := setNodes_ok_isIndexable hchild
        have hcnil : isNil child2 = false := isNil_eq_false_of_isIndexable hcind
        simp only [List.cons_append, walkNodes, hic, hcnil, Bool.false_eq_true, if_false]
        exact ih hchild

theorem setNodes_has {node : JSVal} {ns : List String} {lastKey : String}
    {value node2 : JSVal} (h : setNodes node ns lastKey value = .ok node2) :
    isNil (walkNodes node2 ns) = false ∧
      jsHasIn lastKey (walkNodes node2 ns) = .ok true := by
  induction ns generalizing node node2 with
  | nil =>
    refine ⟨isNil_eq_false_of_isIndexable (jsSetProp_ok_isIndexable h).2, ?_⟩
    exact jsSetProp_ok_hasIn h
  | cons k ks ih =>
    simp only [setNodes] at h
    split at h
    · exact absurd h (by simp)
    · split at h
      · exact absurd h (by simp)
      · rename_i child2 hchild
        have hic : jsIndex node2 k = child2 := jsSetProp_ok_jsIndex h
        have hcnil : isNil child2 = false :=
          isNil_eq_false_of_isIndexable (setNodes_ok_isIndexable hchild)
        simp only [walkNodes, hic, hcnil, Bool.false_eq_true, if_false]
        exact ih hchild

theorem setValueByPath_ok_isIndexable {m : JSVal} {p : String} {v m2 : JSVal}
    (h : setValueByPath m p v = .ok m2) : isIndexable m2 = true := by
  simp only [setValueByPath] at h
  split at h
  · exact absurd h (by simp)
  · exact setNodes_ok_isIndexable h

/-- Reading back a successfully set path: `get` returns the stored value, or
the default when the stored value is nil. -/
theorem setValueByPath_getValueByPath {m : JSVal} {p : String} {v m2 : JSVal} (d : JSVal)
    (h : setValueByPath m p v = .ok m2) :
    getValueByPath m2 p d = .ok (if isNil v then d else v) := by
  have hm2ind : isIndexable m2 = true := setValueByPath_ok_isIndexable h
  have hm2nil : isNil m2 = false := isNil_eq_false_of_isIndexable hm2ind
  simp only [setValueByPath] at h
  split at h
  · exact absurd h (by simp)
  · have hwalk : walkNodes m2 ((pathSplit p).dropLast ++ [(pathSplit p).getLastD ""]) = v :=
      setNodes_walk h
    rw [pathSplit_decomp] at hwalk
    simp only [getValueByPath, hm2nil, Bool.false_eq_true, if_false]
    rw [walkE_eq_walkNodes _ hm2nil, hwalk]

/-- A successfully set leaf key exists afterwards. -/
theorem setValueByPath_hasKeyByPath {m : JSVal} {p : String} {v m2 : JSVal}
    (h : setValueByPath m p v = .ok m2) : hasKeyByPath m2 p = .ok true := by
  have hm2ind : isIndexable m2 = true := setValueByPath_ok_isIndexable h
  have hm2nil : isNil m2 = false := isNil_eq_false_of_isIndexable hm2ind
  simp only [setValueByPath] at h
  split at h
  · exact absurd h (by simp)
  · obtain ⟨hnil, hhas⟩ := setNodes_has h
    simp only [hasKeyByPath, jsTruthy_of_isIndexable hm2ind, Bool.not_true,
      Bool.false_eq_true, if_false]
    rw [walkE_eq_walkNodes _ hm2nil]
    simp only [hnil, Bool.false_eq_true, if_false]
    exact hhas

/-! ## A walk that finds an array guarantees a successful write-back -/

theorem jsIndex_str_cases (s k : String) :
    (∃ c, jsIndex (.str s) k = .str c) ∨ jsIndex (.str s) k = .undef := by
  simp only [jsIndex]
  split
  · split
    · exact Or.inl ⟨_, rfl⟩
    · exact Or.inr rfl
  · exact Or.inr rfl

theorem walkNodes_str_ne_arr (ns : List String) (s : String) (xs : List JSVal) :
    walkNodes (.str s) ns ≠ .arr xs := by
  induction ns generalizing s with
  | nil => simp [walkNodes]
  | cons k ks ih =>
    simp only [walkNodes]
    rcases jsIndex_str_cases s k with ⟨c, hc⟩ | hc <;> rw [hc]
    · simpa [isNil] using ih c
    · simp [isNil, walkNodes]

theorem walkNodes_arr_isIndexable {m : JSVal} {ns : List String} {xs : List JSVal}
    (h : walkNodes m ns = .arr xs) : isIndexable m = true := by
  cases m with
  | arr ys => rfl
  | obj fs => rfl
  | str s => exact absurd h (walkNodes_str_ne_arr ns s xs)
  | undef => cases ns <;> simp_all [walkNodes, jsIndex, jsUndefined, isNil]
  | null => cases ns <;> simp_all [walkNodes, jsIndex, jsUndefined, isNil]
  | bool b => cases ns <;> simp_all [walkNodes, jsIndex, jsUndefined, isNil]
  | num n => cases ns <;> simp_all [walkNodes, jsIndex, jsUndefined, isNil]

theorem objLookup_ne_undef_hasKey {fields : List (String × JSVal)} {key : String}
    (h : objLookup fields key ≠ .undef) : objHasKey fields key = true := by
  induction fields with
  | nil => exact absurd rfl h
  | cons kv rest ih =>
    obtain ⟨k, w⟩ := kv
    by_cases h2 : k == key
    · simp [objHasKey, h2]
    · simp only [objLookup, h2, Bool.false_eq_true, if_false] at h
      simp [objHasKey, h2, ih h]

theorem getD_ne_default_lt_length {xs : List JSVal} {i : Nat}
    (h : xs.getD i .undef ≠ .undef) : i < xs.length := by
  by_contra h2
  exact h (List.getD_eq_default _ _ (Nat.le_of_not_lt h2))

theorem walkNodes_arr_setNodes_ok (ns : List String) {m : JSVal} {k : String}
    {xs : List JSVal} (h : walkNodes m (ns ++ [k]) = .arr xs) (v : JSVal) :
    ∃ m2, setNodes m ns k v = .ok m2 := by
  induction ns generalizing m with
  | nil =>
    simp only [List.nil_append, walkNodes] at h
    have hidx : jsIndex m k = .arr xs := by
      by_cases h2 : isNil (jsIndex m k) = true <;> simp_all [walkNodes]
    cases m with
    | obj fs => exact ⟨_, rfl⟩
    | arr ys =>
      simp only [jsIndex] at hidx
      rcases h3 : toArrayIndex? k with _ | i <;> rw [h3] at hidx
      · exact absurd hidx (by simp)
      · exact ⟨.arr (listSetPad ys i v), by simp [setNodes, jsSetProp, h3]⟩
    | str s =>
      rcases jsIndex_str_cases s k with ⟨c, hc⟩ | hc <;> rw [hc] at hidx <;>
        exact absurd hidx (by simp)
    | undef => simp [jsIndex, jsUndefined] at hidx
    | null => simp [jsIndex, jsUndefined] at hidx
    | bool b => simp [jsIndex, jsUndefined] at hidx
    | num n => simp [jsIndex, jsUndefined] at hidx
  | cons k0 ks ih =>
    simp only [List.cons_append, walkNodes] at h
    by_cases h2 : isNil (jsIndex m k0) = true
    · rw [if_pos h2] at h
      rw [h] at h2
      simp [isNil] at h2
    · rw [if_neg h2] at h
      simp only [Bool.not_eq_true] at h2
      obtain ⟨c2, hc2⟩ := ih h
      cases m with
      | obj fs =>
        have hkey : objHasKey fs k0 = true := by
          apply objLookup_ne_undef_hasKey
          intro hu
          simp only [jsIndex, hu] at h2
          simp [isNil] at h2
        refine ⟨.obj (objInsert fs k0 c2), ?_⟩
        simp only [setNodes, jsHasIn, hkey, if_true, jsIndex]
        rw [show jsIndex (.obj fs) k0 = objLookup fs k0 from rfl] at hc2
        rw [hc2]
        simp [jsSetProp]
      | arr ys =>
        rcases h3 : toArrayIndex? k0 with _ | i
        · simp only [jsIndex, h3] at h2
          simp [isNil] at h2
        · have hlt : i < ys.length := by
            apply getD_ne_default_lt_length
            intro hu
            simp only [jsIndex, h3, hu] at h2
            simp [isNil] at h2
          refine ⟨.arr (listSetPad ys i c2), ?_⟩
          have hidx2 : jsIndex (JSVal.arr ys) k0 = ys.getD i JSVal.undef := by
            simp [jsIndex, h3]
          have hc2b : setNodes (ys.getD i JSVal.undef) ks k v = Except.ok c2 := by
            rwa [hidx2] at hc2
          simp only [setNodes, jsHasIn, h3, decide_eq_true hlt, eq_self_iff_true, if_true,
            hidx2, hc2b, jsSetProp]
      | str s =>
        rcases jsIndex_str_cases s k0 with ⟨c, hc⟩ | hc
        · rw [hc] at h
          exact absurd h (walkNodes_str_ne_arr _ _ _)
        · rw [hc] at h2
          simp [isNil] at h2
      | undef => simp [jsIndex, jsUndefined, isNil] at h2
      | null => simp [jsIndex, jsUndefined, isNil] at h2
      | bool b => simp [jsIndex, jsUndefined, isNil] at h2
      | num n => simp [jsIndex, jsUndefined, isNil] at h2

/-- When `get` finds an array at a path, `set` at that path succeeds for any
value (in particular the bucket write-back of `putIntoBucket` succeeds). -/
theorem getValueByPath_arr_setValueByPath_ok {m : JSVal} {p : String}
    {xs : List JSVal} (h : getValueByPath m p .undef = .ok (.arr xs)) (v : JSVal) :
    ∃ m2, setValueByPath m p v = .ok m2 := by
  simp only [getValueByPath] at h
  split at h
  · exact absurd h (by simp)
  · rename_i hmnil
    simp only [Bool.not_eq_true] at hmnil
    rw [walkE_eq_walkNodes _ hmnil] at h
    simp only [Except.ok.injEq] at h
    have hw : walkNodes m (pathSplit p) = .arr xs := by
      by_cases h2 : isNil (walkNodes m (pathSplit p)) = true
      · rw [if_pos h2] at h
        exact absurd h (by simp)
      · rwa [if_neg h2] at h
    rw [← pathSplit_decomp p] at hw
    obtain ⟨m2, hm2⟩ := walkNodes_arr_setNodes_ok _ hw v
    refine ⟨m2, ?_⟩
    have hind : isIndexable m = true := walkNodes_arr_isIndexable hw
    simp only [setValueByPath, isNil_eq_false_of_isIndexable hind, hind,
      Bool.not_true, Bool.or_false, Bool.false_eq_true, if_false]
    exact hm2

/-! ## Lemmas about the promise chains -/

theorem jsHasIn_ok_of_isIndexable {v : JSVal} (k : String) (h : isIndexable v = true) :
    ∃ b, jsHasIn k v = .ok b := by
  cases v <;> simp_all [isIndexable, jsHasIn]

theorem isNil_eq_false_of_jsTruthy {v : JSVal} (h : jsTruthy v = true) :
    isNil v = false := by
  cases v <;> simp_all [jsTruthy, isNil]

theorem eachPromiseChain_error (fs : List PromiseFactory) (e : JSVal) (acc : List JSVal) :
    eachPromiseChain (.error e) fs acc = (.error e, acc) := by
  induction fs with
  | nil => rfl
  | cons f fs ih => simpa [eachPromiseChain] using ih

theorem eachPromiseChain_success {fs : List PromiseFactory} {rs : List JSVal}
    (tail : List PromiseFactory) (acc : List JSVal)
    (h : List.Forall₂ (fun g s => g .undef = .ok s) fs rs) :
    eachPromiseChain (.ok .undef) (fs ++ tail) acc =
      eachPromiseChain (.ok .undef) tail (acc ++ rs) := by
  induction h generalizing acc with
  | nil => simp
  | @cons f s fs2 rs2 hf hrest ih =>
    simp only [List.cons_append, eachPromiseChain, hf, List.append_eq]
    rw [ih (acc ++ [s])]
    simp

theorem ifAnyPromiseGo_none (pred : Option (JSVal → JSVal))
    {fs : List (Unit → Except JSVal JSVal)} {rs : List JSVal} (i : Nat)
    (h : List.Forall₂ (fun g s => g () = .ok s ∧ ifAnyCheck pred s = false) fs rs) :
    ifAnyPromiseGo pred fs i = .ok none := by
  induction h generalizing i with
  | nil => rfl
  | @cons f s fs2 rs2 hf hrest ih =>
    simp only [ifAnyPromiseGo, hf.1, hf.2, Bool.false_eq_true, if_false]
    exact ih _

theorem ifAnyPromiseGo_shift (pred : Option (JSVal → JSVal))
    {pre : List (Unit → Except JSVal JSVal)} {rs : List JSVal}
    (tail : List (Unit → Except JSVal JSVal)) (i : Nat)
    (h : List.Forall₂ (fun g s => g () = .ok s ∧ ifAnyCheck pred s = false) pre rs) :
    ifAnyPromiseGo pred (pre ++ tail) i = ifAnyPromiseGo pred tail (i + pre.length) := by
  induction h generalizing i with
  | nil => simp
  | @cons f s fs2 rs2 hf hrest ih =>
    simp only [List.cons_append, ifAnyPromiseGo, hf.1, hf.2, Bool.false_eq_true, if_false,
      List.append_eq]
    rw [ih (i + 1)]
    congr 1
    simp only [List.length_cons]
    omega

/-! ## The repository's own mocha test vectors, replayed on the embedding -/

example : getValueByPath jsUndefined "any" (.num 1) = .ok (.num 1) := rfl

example : getValueByPath (.obj [("abc", .str "def")]) "" (.num 1) = .ok (.num 1) := rfl

example :
    getValueByPath
      (.obj [("kol1", .obj [("kol2", .obj [("k1", .num 100), ("k2", .num 200)])])])
      "kol1.kol2.k1" .undef = .ok (.num 100) := rfl

example :
    getValueByPath
      (.obj [("kol1", .obj [("kol2", .obj [("k1", .num 100), ("k2", .num 200)])])])
      "kol1.kol2.k3" (.num 300) = .ok (.num 300) := rfl

example :
    setValueByPath (.obj []) "kol1.kol2.k1" (.num 100) =
      .ok (.obj [("kol1", .obj [("kol2", .obj [("k1", .num 100)])])]) := rfl

example :
    putIntoBucket (.obj [("k1", .arr [.num 1])]) "k1" (.num 10) false =
      .ok (.obj [("k1", .arr [.num 1, .num 10])], .arr [.num 1, .num 10]) := rfl

example :
    putIntoBucket (.obj [("k2", .obj [("k22", .num 2)])]) "k2.k22" (.num 20) false =
      .ok (.obj [("k2", .obj [("k22", .arr [.num 2, .num 20])])],
        .arr [.num 2, .num 20]) := rfl

example :
    putIntoBucket (.obj []) "k3" (.num 3) false =
      .ok (.obj [("k3", .arr [.num 3])], .arr [.num 3]) := rfl

example :
    eachPromise [fun _ => .ok (.num 1), fun _ => .ok (.num 2), fun _ => .ok (.num 3)] =
      .ok [.num 1, .num 2, .num 3] := rfl

example :
    ifAnyPromise [fun _ => .ok (.bool false), fun _ => .ok (.bool false),
      fun _ => .ok (.bool true), fun _ => .ok (.bool false)] (some fun s => s) =
      .ok (some (2, .bool true)) := rfl

example :
    ifAnyPromise [fun _ => .ok (.bool false), fun _ => .ok (.bool false)]
      (some fun s => s) = .ok none := rfl

/-! ## Claim theorems -/

/-- C1: a found falsy value must be returned as-is, not replaced by the
default.  The current `src/src/index.js` `getValueByPath` (checking only for
nil) does return the found `0`, but the legacy root `index.js` variant computes
`value || defaultValue` and replaces the found `0` by the default `5` — the
claimed (and documented) behaviour is violated by that variant. -/
theorem C1_falsy_found_value_legacy_divergence :
    getValueByPathLegacy (.obj [("a", .num 0)]) "a" (.num 5) = .ok (.num 5) ∧
      getValueByPath (.obj [("a", .num 0)]) "a" (.num 5) = .ok (.num 0) ∧
      JSVal.num 0 ≠ JSVal.num 5 :=
  ⟨rfl, rfl, by simp⟩

/-- C2 counterexample: the round trip fails for the stored value `null`.
`setValueByPath({}, "a", null)` completes, `hasKeyByPath` sees the key, but
`getValueByPath` returns the default (`undefined`, or `7` when supplied), not
the stored `null`. -/
theorem C2_counterexample_stored_null :
    setValueByPath (.obj []) "a" .null = .ok (.obj [("a", .null)]) ∧
      getValueByPath (.obj [("a", .null)]) "a" .undef = .ok .undef ∧
      getValueByPath (.obj [("a", .null)]) "a" (.num 7) = .ok (.num 7) ∧
      hasKeyByPath (.obj [("a", .null)]) "a" = .ok true ∧
      JSVal.undef ≠ JSVal.null :=
  ⟨rfl, rfl, rfl, rfl, fun h => nomatch h⟩

/-- C2 (amended): after a completed `setValueByPath(m, p, v)`, `hasKeyByPath`
returns `true`, and `getValueByPath` returns `v` unless `v` is nil
(`null`/`undefined`), in which case it returns the default. -/
theorem C2_set_get_has_roundtrip (m : JSVal) (p : String) (v m2 : JSVal)
    (h : setValueByPath m p v = .ok m2) :
    getValueByPath m2 p .undef = .ok (if isNil v then .undef else v) ∧
      hasKeyByPath m2 p = .ok true :=
  ⟨setValueByPath_getValueByPath .undef h, setValueByPath_hasKeyByPath h⟩

theorem C2_set_get_has_roundtrip_witness :
    getValueByPath (.obj [("a", .obj [("b", .num 3)])]) "a.b" .undef = .ok (.num 3) ∧
      hasKeyByPath (.obj [("a", .obj [("b", .num 3)])]) "a.b" = .ok true :=
  C2_set_get_has_roundtrip (.obj []) "a.b" (.num 3)
    (.obj [("a", .obj [("b", .num 3)])]) rfl

/-- C7 counterexample: `setValueByPath` and `hasKeyByPath` can raise even for a
valid (non-nil object) mapping, when the walk reaches a primitive intermediate:
with `{ a: 5 }` and path `"a.b"`, `set` assigns a property on the number `5`
(a strict-mode `TypeError`) and `has` evaluates `"b" in 5` (a `TypeError`). -/
theorem C7_counterexample_raises_on_valid_mapping :
    isIndexable (.obj [("a", .num 5)]) = true ∧
      setValueByPath (.obj [("a", .num 5)]) "a.b" (.num 1) =
        .error "TypeError: cannot create property on a primitive" ∧
      hasKeyByPath (.obj [("a", .num 5)]) "a.b" =
        .error "TypeError: cannot use in operator on a primitive" :=
  ⟨rfl, rfl, rfl⟩

/-- C7 (amended): `setValueByPath` raises `Invalid collection object.` whenever
the mapping is nil or not an object; `getValueByPath` never raises; and
`hasKeyByPath` never raises when the walk to the leaf's parent ends nil or in
an indexable value (it can raise only when that parent is a non-nil
primitive). -/
theorem C7_error_behaviour :
    (∀ (m : JSVal) (p : String) (v : JSVal),
        isNil m = true ∨ isIndexable m = false →
        setValueByPath m p v = .error "Invalid collection object.") ∧
      (∀ (m : JSVal) (p : String) (d : JSVal), ∃ r, getValueByPath m p d = .ok r) ∧
      (∀ (m : JSVal) (p : String),
          isNil (walkNodes m (pathSplit p).dropLast) = true ∨
            isIndexable (walkNodes m (pathSplit p).dropLast) = true →
          ∃ b, hasKeyByPath m p = .ok b) := by
  refine ⟨?_, ?_, ?_⟩
  · intro m p v h
    rcases h with h | h <;> simp [setValueByPath, h]
  · intro m p d
    by_cases h : isNil m = true
    · exact ⟨d, by simp [getValueByPath, h]⟩
    · simp only [Bool.not_eq_true] at h
      refine ⟨if isNil (walkNodes m (pathSplit p)) then d else walkNodes m (pathSplit p), ?_⟩
      simp [getValueByPath, h, walkE_eq_walkNodes _ h]
  · intro m p h
    by_cases ht : jsTruthy m = true
    · have hm : isNil m = false := isNil_eq_false_of_jsTruthy ht
      by_cases hw : isNil (walkNodes m (pathSplit p).dropLast) = true
      · exact ⟨false, by simp [hasKeyByPath, ht, walkE_eq_walkNodes _ hm, hw]⟩
      · simp only [Bool.not_eq_true] at hw
        rcases h with h | h
        · exact absurd h (by simp [hw])
        · obtain ⟨b, hb⟩ := jsHasIn_ok_of_isIndexable ((pathSplit p).getLastD "") h
          rw [List.getLastD_eq_getLast?] at hb
          exact ⟨b, by simp [hasKeyByPath, ht, walkE_eq_walkNodes _ hm, hw, hb]⟩
    · simp only [Bool.not_eq_true] at ht
      exact ⟨false, by simp [hasKeyByPath, ht]⟩

theorem C7_error_behaviour_witness :
    setValueByPath .null "x" (.num 1) = .error "Invalid collection object." ∧
      (∃ r, getValueByPath (.obj []) "a.b" (.num 3) = .ok r) ∧
      (∃ b, hasKeyByPath (.obj []) "a.b" = .ok b) :=
  ⟨C7_error_behaviour.1 .null "x" (.num 1) (Or.inl rfl),
   C7_error_behaviour.2.1 (.obj []) "a.b" (.num 3),
   C7_error_behaviour.2.2 (.obj []) "a.b" (Or.inl rfl)⟩

/-- C8 counterexample: the empty path is not unconditionally "not found" — it
looks up the empty-string key, so a mapping with a non-nil `""` entry returns
that value instead of the default. -/
theorem C8_counterexample_empty_string_key :
    getValueByPath (.obj [("", .num 42)]) "" (.num 7) = .ok (.num 42) ∧
      JSVal.num 42 ≠ JSVal.num 7 :=
  ⟨rfl, by simp⟩

/-- C8 (amended): `getValueByPath(m, "", d)` returns `d` whenever the
empty-string key resolves to nil on `m` (in particular for every mapping
without an own `""` key); when `m` is non-nil and `m[""]` is non-nil, that
value is returned instead. -/
theorem C8_empty_path_behaviour :
    (∀ (m d : JSVal), isNil (jsIndex m "") = true → getValueByPath m "" d = .ok d) ∧
      (∀ (m d : JSVal), isNil m = false → isNil (jsIndex m "") = false →
        getValueByPath m "" d = .ok (jsIndex m "")) := by
  constructor
  · intro m d h
    by_cases h2 : isNil m = true
    · simp [getValueByPath, h2]
    · simp only [Bool.not_eq_true] at h2
      have hw : walkNodes m (pathSplit "") = jsIndex m "" := by
        show walkNodes m [""] = jsIndex m ""
        simp [walkNodes, h]
      simp [getValueByPath, h2, walkE_eq_walkNodes _ h2, hw, h]
  · intro m d h1 h2
    have hw : walkNodes m (pathSplit "") = jsIndex m "" := by
      show walkNodes m [""] = jsIndex m ""
      simp [walkNodes, h2]
    simp [getValueByPath, h1, walkE_eq_walkNodes _ h1, hw, h2]

theorem C8_empty_path_behaviour_witness :
    getValueByPath (.obj [("abc", .str "def")]) "" (.num 1) = .ok (.num 1) ∧
      getValueByPath (.obj [("", .num 42)]) "" (.num 1) = .ok (.num 42) :=
  ⟨C8_empty_path_behaviour.1 (.obj [("abc", .str "def")]) (.num 1) rfl,
   C8_empty_path_behaviour.2 (.obj [("", .num 42)]) (.num 1) rfl rfl⟩

/-- C10: after `setValueByPath(m, p, null)` completes, `hasKeyByPath` reports
the key as existing while `getValueByPath` returns the supplied default,
because `get` treats a resolved `null` like an absent value. -/
theorem C10_null_get_has_divergence (m : JSVal) (p : String) (d m2 : JSVal)
    (h : setValueByPath m p .null = .ok m2) :
    hasKeyByPath m2 p = .ok true ∧ getValueByPath m2 p d = .ok d :=
  ⟨setValueByPath_hasKeyByPath h, by
    have hg := setValueByPath_getValueByPath d h
    simpa [isNil] using hg⟩

theorem C10_null_get_has_divergence_witness :
    hasKeyByPath (.obj [("x", .null)]) "x" = .ok true ∧
      getValueByPath (.obj [("x", .null)]) "x" (.num 7) = .ok (.num 7) :=
  C10_null_get_has_divergence (.obj [("x", .num 1)]) "x" (.num 7)
    (.obj [("x", .null)]) rfl

theorem newBucket_isArr (bucket value : JSVal) (fl : Bool) :
    ∃ xs, newBucket bucket value fl = .arr xs := by
  unfold newBucket
  split
  · exact ⟨_, rfl⟩
  · exact ⟨_, rfl⟩
  · split <;> exact ⟨_, rfl⟩
  · split <;> exact ⟨_, rfl⟩

/-- C6: with `flatten=true` and an array value, `putIntoBucket` appends the
value's elements individually onto an existing array bucket: a bucket holding
`xs` grows to `xs ++ ys`, never to `xs ++ [ys]`, and the write always
succeeds. -/
theorem C6_flatten_appends_elementwise (m : JSVal) (p : String) (xs ys : List JSVal)
    (h : getValueByPath m p .undef = .ok (.arr xs)) :
    ∃ m2, putIntoBucket m p (.arr ys) true = .ok (m2, .arr (xs ++ ys)) := by
  obtain ⟨m2, hm2⟩ := getValueByPath_arr_setValueByPath_ok h (.arr (xs ++ ys))
  refine ⟨m2, ?_⟩
  have hnb : newBucket (.arr xs) (.arr ys) true = .arr (xs ++ ys) := rfl
  simp only [putIntoBucket, h, hnb, hm2]

theorem C6_flatten_appends_elementwise_witness :
    ∃ m2, putIntoBucket (.obj [("k", .arr [.num 1])]) "k" (.arr [.num 2, .num 3]) true =
      .ok (m2, .arr [.num 1, .num 2, .num 3]) :=
  C6_flatten_appends_elementwise (.obj [("k", .arr [.num 1])]) "k" [.num 1]
    [.num 2, .num 3] rfl

/-- C9: whenever `putIntoBucket` completes, the value it returns is an array,
and reading the path immediately afterwards yields exactly that returned
bucket. -/
theorem C9_putIntoBucket_postcondition (m : JSVal) (p : String) (v : JSVal)
    (fl : Bool) (m2 b : JSVal) (h : putIntoBucket m p v fl = .ok (m2, b)) :
    (∃ xs, b = .arr xs) ∧ getValueByPath m2 p .undef = .ok b := by
  simp only [putIntoBucket] at h
  split at h
  · exact absurd h (by simp)
  · rename_i bucket hget
    split at h
    · exact absurd h (by simp)
    · rename_i c hset
      simp only [Except.ok.injEq, Prod.mk.injEq] at h
      obtain ⟨hc, hb⟩ := h
      subst hc
      subst hb
      obtain ⟨xs, hxs⟩ := newBucket_isArr bucket v fl
      rw [hxs] at hset ⊢
      refine ⟨⟨xs, rfl⟩, ?_⟩
      have hg := setValueByPath_getValueByPath .undef hset
      simpa [isNil] using hg

theorem C9_putIntoBucket_postcondition_witness :
    (∃ xs, JSVal.arr [.num 3, .num 30] = .arr xs) ∧
      getValueByPath (.obj [("k3", .arr [.num 3, .num 30])]) "k3" .undef =
        .ok (.arr [.num 3, .num 30]) :=
  C9_putIntoBucket_postcondition (.obj [("k3", .arr [.num 3])]) "k3" (.num 30) false
    (.obj [("k3", .arr [.num 3, .num 30])]) (.arr [.num 3, .num 30]) rfl

/-- C3: `eachPromise_` resolves with the factories' results in input order when
every factory resolves; it rejects with the first failure, unchanged, whatever
factories follow the failing one (they are never consulted), and the results
accumulated before the failure are discarded. -/
theorem C3_eachPromise_order_and_failfast :
    (eachPromise [] = .ok []) ∧
    (∀ (f : PromiseFactory) (fs : List PromiseFactory) (r : JSVal) (rs : List JSVal),
        f .null = .ok r →
        List.Forall₂ (fun g s => g .undef = .ok s) fs rs →
        eachPromise (f :: fs) = .ok (r :: rs)) ∧
    (∀ (f : PromiseFactory) (fs : List PromiseFactory) (e : JSVal),
        f .null = .error e → eachPromise (f :: fs) = .error e) ∧
    (∀ (f : PromiseFactory) (fs : List PromiseFactory) (r : JSVal) (rs : List JSVal)
        (g : PromiseFactory) (e : JSVal) (post : List PromiseFactory),
        f .null = .ok r →
        List.Forall₂ (fun g2 s => g2 .undef = .ok s) fs rs →
        g .undef = .error e →
        eachPromise ((f :: fs) ++ g :: post) = .error e) := by
  refine ⟨rfl, ?_, ?_, ?_⟩
  · intro f fs r rs hf hrest
    have hch := eachPromiseChain_success [] [r] hrest
    simp only [List.append_nil] at hch
    simp only [eachPromise, eachPromiseChain, hf, List.nil_append, hch,
      List.singleton_append]
  · intro f fs e hf
    simp only [eachPromise, eachPromiseChain, hf, eachPromiseChain_error]
  · intro f fs r rs g e post hf hrest hg
    have hch := eachPromiseChain_success (g :: post) [r] hrest
    simp only [eachPromise, List.cons_append, eachPromiseChain, hf, List.nil_append,
      List.append_eq, hch, List.singleton_append, hg, eachPromiseChain_error]

theorem C3_eachPromise_order_and_failfast_witness :
    eachPromise [fun _ => .ok (.num 1), fun _ => .ok (.num 2), fun _ => .ok (.num 3)] =
        .ok [.num 1, .num 2, .num 3] ∧
      eachPromise [fun _ => .ok (.num 1), fun _ => .error (.str "boom"),
        fun _ => .ok (.num 3)] = .error (.str "boom") :=
  ⟨C3_eachPromise_order_and_failfast.2.1 (fun _ => .ok (.num 1))
      [fun _ => .ok (.num 2), fun _ => .ok (.num 3)] (.num 1) [.num 2, .num 3] rfl
      (List.Forall₂.cons rfl (List.Forall₂.cons rfl List.Forall₂.nil)),
   C3_eachPromise_order_and_failfast.2.2.2 (fun _ => .ok (.num 1)) [] (.num 1) []
      (fun _ => .error (.str "boom")) (.str "boom") [fun _ => .ok (.num 3)] rfl
      List.Forall₂.nil rfl⟩

/-- C5: the claim says each factory receives the previous factory's resolved
result, but the chain interleaves the accumulator-push step, whose callback
returns nothing, so every factory after the first actually receives
`undefined`: an echo factory after one resolving `10` yields
`[10, undefined]`, not `[10, 10]`. -/
theorem C5_previous_result_not_threaded :
    eachPromise [fun _ => .ok (.num 10), fun prev => .ok prev] =
        .ok [.num 10, .undef] ∧
      eachPromise [fun _ => .ok (.num 10), fun prev => .ok prev] ≠
        .ok [.num 10, .num 10] :=
  ⟨rfl, fun h => nomatch h⟩

/-- C4 counterexample: an index whose result fails the supplied predicate does
stop the run when the result itself is truthy: with a predicate that always
returns `false` and a factory resolving `5`, the run resolves with `(0, 5)`
instead of passing the index over. -/
theorem C4_counterexample_predicate_ignored_for_truthy :
    ifAnyPromise [fun _ => .ok (.num 5)] (some fun _ => .bool false) =
        .ok (some (0, .num 5)) ∧
      ifAnyPromise [fun _ => .ok (.num 5)] (some fun _ => .bool false) ≠ .ok none :=
  ⟨rfl, fun h => nomatch h⟩

/-- C4 (amended): `ifAnyPromise_` stops at the first index whose result passes
the supplied predicate OR is itself truthy (`(predicate && predicate(result))
|| result`), resolving with that `(index, result)`; indices whose results fail
the predicate and are falsy never stop the run, and when every result fails
that check the run resolves with `undefined`. -/
theorem C4_first_passing_check_wins :
    (∀ (pred : Option (JSVal → JSVal)) (pre : List (Unit → Except JSVal JSVal))
        (rs : List JSVal) (f : Unit → Except JSVal JSVal) (r : JSVal)
        (post : List (Unit → Except JSVal JSVal)),
        List.Forall₂ (fun g s => g () = .ok s ∧ ifAnyCheck pred s = false) pre rs →
        f () = .ok r → ifAnyCheck pred r = true →
        ifAnyPromise (pre ++ f :: post) pred = .ok (some (pre.length, r))) ∧
    (∀ (pred : Option (JSVal → JSVal)) (fs : List (Unit → Except JSVal JSVal))
        (rs : List JSVal),
        List.Forall₂ (fun g s => g () = .ok s ∧ ifAnyCheck pred s = false) fs rs →
        ifAnyPromise fs pred = .ok none) := by
  constructor
  · intro pred pre rs f r post hpre hf hr
    simp only [ifAnyPromise]
    rw [ifAnyPromiseGo_shift pred (f :: post) 0 hpre]
    simp only [ifAnyPromiseGo, hf, hr, if_true, Nat.zero_add]
  · intro pred fs rs h
    exact ifAnyPromiseGo_none pred 0 h

theorem C4_first_passing_check_wins_witness :
    ifAnyPromise [fun _ => .ok (.bool false), fun _ => .ok (.bool true),
        fun _ => .ok (.bool false)] (some fun s => s) = .ok (some (1, .bool true)) ∧
      ifAnyPromise [fun _ => .ok (.bool false), fun _ => .ok (.bool false)]
        (some fun s => s) = .ok none :=
  ⟨C4_first_passing_check_wins.1 (some fun s => s) [fun _ => .ok (.bool false)]
      [.bool false] (fun _ => .ok (.bool true)) (.bool true) [fun _ => .ok (.bool false)]
      (List.Forall₂.cons ⟨rfl, rfl⟩ List.Forall₂.nil) rfl rfl,
   C4_first_passing_check_wins.2 (some fun s => s)
      [fun _ => .ok (.bool false), fun _ => .ok (.bool false)] [.bool false, .bool false]
      (List.Forall₂.cons ⟨rfl, rfl⟩ (List.Forall₂.cons ⟨rfl, rfl⟩ List.Forall₂.nil))⟩
